import Mathlib

/-!
Verification of the adaptFinder candidate-discovery engine (src/adaptFinder.cpp)
against its natural-language specification.

The C++ source is shallowly embedded: nucleotides are `Fin 4` (SeqAn `Dna`
stores A=0, C=1, G=2, T=3), `uint64_t` arithmetic is `Nat` with explicit
`% 2 ^ 64` where the source can wrap, `float`/`double` expressions are
modelled over `ℚ` (noted at each definition), `std::unordered_map` is an
association list, `std::set` is a `Finset`, and `std::vector<bool>` is
`List Bool`.  The SeqAn FM-index search (`find<0, MAXERR>`) is the external
black-box full-text index of the spec; its stream of occurrences is an
arbitrary `List (Nat × Fin 3)` parameter (read id, error count).
-/

namespace AdaptFinder

/-! ## KmerCodec: dna2int / int2dna (adaptFinder.cpp lines 56-79) -/

/-- Embeds `dna2int`: `value = value << 2 | (uint8_t)(c)` folded over the
sequence, in `uint64_t` arithmetic (the shift wraps modulo `2 ^ 64`). -/
def dna2int (seq : List (Fin 4)) : Nat :=
  seq.foldl (fun value c => ((value <<< 2) % 2 ^ 64) ||| c.val) 0

/-- Embeds `int2dna`: k times, prepend `DNA[value & 3]` and shift `value`
right by 2.  The character produced by iteration i is the (k-1-i)-th symbol,
so one unfolding appends the low-bits symbol at the right end. -/
def int2dna : Nat → Nat → List (Fin 4)
  | _, 0 => []
  | value, j + 1 =>
    int2dna (value >>> 2) j ++ [⟨value &&& 3, Nat.lt_succ_of_le Nat.and_le_right⟩]

/-! ## ComplexityFilter (lines 185-236) -/

/-- Embeds `adjust_threshold` (lines 185-188):
`c_old * (pow(k_new-2+1, 2) / pow(k_old-2+1, 2))`.  The float arithmetic is
modelled over ℚ (squares of these small integers and the 225/225 ratio at the
reference size are exact in the C++ float/double computation). -/
def adjust_threshold (c_old : ℚ) (k_old k_new : Nat) : ℚ :=
  c_old * (((k_new : ℚ) - 2 + 1) ^ 2 / ((k_old : ℚ) - 2 + 1) ^ 2)

/-- The k validation in `main` (line 632): the run throws iff `k<2 or k>32`. -/
def kValid (k : Nat) : Bool := !(decide (k < 2) || decide (k > 32))

/-- Denominator of the complexity score `sum / float(2 * (k - 2))`
(line 234), as the source's integer expression. -/
def lcDenominator (k : Nat) : Int := 2 * ((k : Int) - 2)

/-- Embeds `haveLowComplexity` (lines 216-236).  The 16-bucket dimer
histogram is built exactly as in the source (extract the low 4 bits, shift
right by 2, k-1 times); `v * (v - 1)` agrees with the source's unsigned
arithmetic at v = 0 (both give 0).  The float score `sum / float(2*(k-2))`
is modelled over ℚ; for k = 2 the C++ denominator is zero (see C5). -/
def haveLowComplexity (kmer : Nat) (k : Nat) (threshold : ℚ) : Bool :=
  let st := (List.range (k - 1)).foldl
    (fun (st : Nat × List Nat) _ =>
      let c := st.1 &&& 15
      (st.1 >>> 2, st.2.set c (st.2.getD c 0 + 1)))
    (kmer, List.replicate 16 0)
  let sum : Nat := (st.2.map (fun v => v * (v - 1))).sum
  decide (threshold ≤ (sum : ℚ) / (lcDenominator k : ℚ))

/-- Embeds `isForbiddenKmer` (lines 245-247): set membership. -/
def isForbiddenKmer (kmer : Nat) (kmer_set : Finset Nat) : Bool :=
  decide (kmer ∈ kmer_set)

/-! ## ForbiddenSet loading (lines 254-272) -/

/-- SeqAn `Dna` character conversion used by `DnaString(line)`: A/C/G/T in
either case map to 0..3, every other character reads as A (0). -/
def charToDna (ch : Char) : Fin 4 :=
  if ch = 'A' ∨ ch = 'a' then 0
  else if ch = 'C' ∨ ch = 'c' then 1
  else if ch = 'G' ∨ ch = 'g' then 2
  else if ch = 'T' ∨ ch = 't' then 3
  else 0

def strToDna (line : String) : List (Fin 4) := line.toList.map charToDna

/-- Embeds `parse_kmer_list` (lines 254-272) for a file that opened, as the
fold over its lines: every line is encoded with `dna2int` and inserted into
the set, with no validation of any kind.  (The only fatal path in the source
is failure to open the file, line 269.) -/
def parse_kmer_list (lines : List String) : Finset Nat :=
  lines.foldl (fun kmer_set line => insert (dna2int (strToDna line)) kmer_set) ∅

/-- Modelled from the spec: a line is a decodable k-length nucleotide string
when it has length k and uses only the alphabet ACGT.  The source never
performs this check; the definition only states C4. -/
def decodableKmerLine (k : Nat) (line : String) : Prop :=
  line.length = k ∧ ∀ ch ∈ line.toList, ch ∈ (['A', 'C', 'G', 'T'] : List Char)

/-! ## CandidateSelector (lines 280-312) -/

/-- The comparator of the `std::sort` call, `x.second > y.second`
(descending by count), as the total Bool relation handed to the sort. -/
def countDescLE (x y : Nat × Nat) : Bool := decide (y.2 ≤ x.2)

/-- The limit loop of `get_solid_kmers` (lines 284-293): count the leading
sorted entries with count ≥ the threshold, stopping at the first below. -/
def solidLimit (solid_km : Nat) : List (Nat × Nat) → Nat
  | [] => 0
  | p :: rest => if solid_km ≤ p.2 then solidLimit solid_km rest + 1 else 0

/-- Embeds `get_solid_kmers` (lines 280-296): sort the (kmer, count) pairs
descending by count, then `resize` to the computed limit (= take). -/
def get_solid_kmers (count_map : List (Nat × Nat)) (solid_km : Nat) :
    List (Nat × Nat) :=
  let kmer_vec := count_map.mergeSort countDescLE
  kmer_vec.take (solidLimit solid_km kmer_vec)

/-! ## Sampler (lines 322-383), per-read window extraction -/

/-- Start position of the end-window, `length - 1 - current_cut_size`
(line 370), in uint64 arithmetic: it wraps modulo 2^64 when
current_cut_size ≥ length. -/
def suffixStart (len current_cut_size : Nat) : Nat :=
  (((len : Int) - 1 - current_cut_size) % (2 ^ 64 : Int)).toNat

/-- SeqAn `suffix(host, pos)`: the substring from pos to the end, defined
only for pos ≤ length; out of range is an out-of-bounds access (UB),
modelled as none. -/
def seqanSuffix (seq : List (Fin 4)) (pos : Nat) : Option (List (Fin 4)) :=
  if pos ≤ seq.length then some (seq.drop pos) else none

/-- Embeds the per-read window extraction of `sampleSequences`
(lines 358-374): clip the cut size to the read length; `bot` takes
`suffix(seq, length - 1 - current_cut_size)`, else the leading
current_cut_size symbols. -/
def sampleWindow (seq : List (Fin 4)) (cut_size : Nat) (bot : Bool) :
    Option (List (Fin 4)) :=
  let current_cut_size := min seq.length cut_size
  if bot then seqanSuffix seq (suffixStart seq.length current_cut_size)
  else some (seq.take current_cut_size)

/-! ## ExactCounter (lines 394-413) -/

/-- The sliding update of the running code (lines 404-405):
`n <<= 2; n = (n & base) | seq[i]` in uint64 arithmetic, yielding the list
of successive k-mer codes. -/
def slideKmers (base : Nat) : Nat → List (Fin 4) → List Nat
  | _, [] => []
  | n, ch :: rest =>
    let n' := (((n <<< 2) % 2 ^ 64) &&& base) ||| ch.val
    n' :: slideKmers base n' rest

/-- The k-mer codes extracted from one window: seed with the encoding of the
first k-1 symbols (line 400) and slide over the rest, with
`base = std::pow(2, 2*k) - 1` (line 397; exact in double for the k ≤ 31 the
mask matters for). -/
def kmerList (seq : List (Fin 4)) (k : Nat) : List Nat :=
  slideKmers (2 ^ (2 * k) - 1) (dna2int (seq.take (k - 1))) (seq.drop (k - 1))

/-- `count[n] += 1` on the association-list model of the unordered map. -/
def incr : List (Nat × Nat) → Nat → List (Nat × Nat)
  | [], key => [(key, 1)]
  | p :: rest, key =>
    if p.1 = key then (p.1, p.2 + 1) :: rest else p :: incr rest key

/-- Embeds `count_kmers` (lines 394-413): for every window, every extracted
k-mer code passing the low-complexity filter and not in the forbidden set
is counted. -/
def count_kmers (sequences : List (List (Fin 4))) (k : Nat) (threshold : ℚ)
    (kmer_set : Finset Nat) : List (Nat × Nat) :=
  sequences.foldl
    (fun count seq =>
      (kmerList seq k).foldl
        (fun count n =>
          if !haveLowComplexity n k threshold && !isForbiddenKmer n kmer_set
          then incr count n else count)
        count)
    []

/-- Sum of all counts of a table. -/
def sumCounts (count : List (Nat × Nat)) : Nat := (count.map (fun p => p.2)).sum

/-! ## ApproximateCounter (lines 425-493) -/

/-- One bit per sampled read, per error level (the source `bit_field`). -/
abbrev bit_field := List Bool

/-- Embeds `vectorSum` (lines 196-204) on a bit field: bools add as 0/1. -/
def vectorSum (vec : bit_field) : Nat :=
  vec.foldl (fun res b => res + if b then 1 else 0) 0

/-- The search delegate (lines 450-457) processing one occurrence:
`tcount[errors][read_id] = true` (a no-op on an already-set bit, and
`List.set` out of range is a no-op like the source's in-bounds accesses
always are). -/
def setOcc (tcount : Fin 3 → bit_field) (occ : Nat × Fin 3) : Fin 3 → bit_field :=
  fun e => if e = occ.2 then (tcount e).set occ.1 true else tcount e

/-- The three bit fields for one candidate: reset to all-false with
`sample_size` bits (line 473), then every occurrence reported by the index
search is processed by the delegate. -/
def tcountFill (occs : List (Nat × Fin 3)) (sample_size : Nat) : Fin 3 → bit_field :=
  occs.foldl setOcc (fun _ => List.replicate sample_size false)

/-- Total occurrence count for one candidate (lines 482-485): the sum of
the three bit-field popcounts. -/
def totalOf (tcount : Fin 3 → bit_field) : Nat :=
  vectorSum (tcount 0) + vectorSum (tcount 1) + vectorSum (tcount 2)

/-- Total count computed for one candidate from the fixed occurrence list
the search returns. -/
def totalCount (sample_size : Nat) (occs : List (Nat × Fin 3)) : Nat :=
  totalOf (tcountFill occs sample_size)

/-- `results[kmer] = total` on the association-list model of the map. -/
def mapAssign (results : List (Nat × Nat)) (key total : Nat) : List (Nat × Nat) :=
  if results.any (fun p => p.1 == key)
  then results.map (fun p => if p.1 = key then (key, total) else p)
  else results ++ [(key, total)]

/-- Embeds `errorCount` (lines 425-493).  The SeqAn bidirectional FM-index
and `find<0, MAXERR>` are the external black-box index of spec 4.6; `occsOf
kmer` is the fixed list of (read id, error count) occurrences the search
reports for a candidate.  The OpenMP loop distributes candidates over
threads with each candidate's total computed thread-locally and written to
its own key under the critical section, so the final table is the
sequential fold. -/
def errorCount (occsOf : Nat → List (Nat × Fin 3))
    (exact_count : List (Nat × Nat)) (sample_size : Nat) : List (Nat × Nat) :=
  exact_count.foldl
    (fun results c => mapAssign results c.1 (totalCount sample_size (occsOf c.1)))
    []

/-! ## Pipeline diagnostics -/

/-- The FREQ_THRESHOLD_WARNING constant (line 28), over ℚ. -/
def FREQ_THRESHOLD_WARNING : ℚ := 1 / 10

/-- Embeds the weak-signal check (line 747):
`sorted_error_count[0].second < FREQ_THRESHOLD_WARNING * sn`.  The vector
subscript [0] is in bounds only when the approximate-count result list is
nonempty; on the empty list the access is out of bounds (UB), modelled as
none. -/
def weakSignalWarning (sorted_error_count : List (Nat × Nat)) (sn : Nat) :
    Option Bool :=
  (sorted_error_count.head?).map
    (fun top => decide ((top.2 : ℚ) < FREQ_THRESHOLD_WARNING * sn))

/-! ## Theorems -/

/-- Bit-level bridge: or-ing a multiple of 4 with a value below 4 is addition
(the two low bits of the left operand are free). -/
theorem lor_eq_add_of_small (a c : Nat) (ha : a % 4 = 0) (hc : c < 4) :
    a ||| c = a + c := by
  apply Nat.eq_of_testBit_eq
  intro i
  rw [Nat.testBit_lor, Nat.testBit_to_div_mod, Nat.testBit_to_div_mod,
    Nat.testBit_to_div_mod]
  match i with
  | 0 =>
    simp only [pow_zero, Nat.div_one]
    have h1 : a % 2 = 0 := by omega
    have h2 : (a + c) % 2 = c % 2 := by omega
    rw [h1, h2]
    simp
  | 1 =>
    simp only [pow_one]
    have h1 : a / 2 % 2 = 0 := by omega
    have h2 : (a + c) / 2 % 2 = c / 2 % 2 := by omega
    rw [h1, h2]
    simp
  | i + 2 =>
    have h4 : (2 : Nat) ^ (i + 2) = 4 * 2 ^ i := by ring
    rw [h4, ← Nat.div_div_eq_div_mul, ← Nat.div_div_eq_div_mul,
      ← Nat.div_div_eq_div_mul]
    have hc4 : c / 4 = 0 := by omega
    have hac : (a + c) / 4 = a / 4 := by omega
    rw [hc4, hac, Nat.zero_div]
    simp

/-- One `dna2int` fold step, rewritten to plain arithmetic. -/
theorem dna2int_step_eq (v : Nat) (c : Fin 4) :
    ((v <<< 2) % 2 ^ 64) ||| c.val = 4 * (v % 2 ^ 62) + c.val := by
  have h1 : v <<< 2 = 4 * v := by rw [Nat.shiftLeft_eq]; ring
  have h2 : 4 * v % 2 ^ 64 = 4 * (v % 2 ^ 62) := by
    have h3 : (2 : Nat) ^ 64 = 4 * 2 ^ 62 := by norm_num
    rw [h3, Nat.mul_mod_mul_left]
  rw [h1, h2]
  exact lor_eq_add_of_small _ _ (by omega) c.isLt

theorem dna2int_append (s : List (Fin 4)) (c : Fin 4) :
    dna2int (s ++ [c]) = ((dna2int s <<< 2) % 2 ^ 64) ||| c.val := by
  unfold dna2int
  rw [List.foldl_append]
  rfl

/-- For at most 32 symbols the packed value stays below `4 ^ length`
(no `uint64_t` wrap occurs). -/
theorem dna2int_lt (s : List (Fin 4)) (h : s.length ≤ 32) :
    dna2int s < 4 ^ s.length := by
  induction s using List.reverseRecOn with
  | nil => simp [dna2int]
  | append_singleton s c ih =>
    rw [List.length_append] at h ⊢
    simp only [List.length_singleton] at h ⊢
    have hb := ih (by omega)
    have h62 : dna2int s < 2 ^ 62 := by
      calc dna2int s < 4 ^ s.length := hb
        _ ≤ 4 ^ 31 := Nat.pow_le_pow_right (by norm_num) (by omega)
        _ ≤ 2 ^ 62 := by norm_num
    rw [dna2int_append, dna2int_step_eq, Nat.mod_eq_of_lt h62]
    have hc := c.isLt
    have : (4 : Nat) ^ (s.length + 1) = 4 * 4 ^ s.length := by ring
    omega

theorem int2dna_dna2int_aux (s : List (Fin 4)) (h : s.length ≤ 32) :
    int2dna (dna2int s) s.length = s := by
  induction s using List.reverseRecOn with
  | nil => rfl
  | append_singleton s c ih =>
    rw [List.length_append] at h ⊢
    simp only [List.length_singleton] at h ⊢
    have h62 : dna2int s < 2 ^ 62 := by
      calc dna2int s < 4 ^ s.length := dna2int_lt s (by omega)
        _ ≤ 4 ^ 31 := Nat.pow_le_pow_right (by norm_num) (by omega)
        _ ≤ 2 ^ 62 := by norm_num
    rw [dna2int_append, dna2int_step_eq, Nat.mod_eq_of_lt h62]
    show int2dna (4 * dna2int s + c.val) (s.length + 1) = s ++ [c]
    rw [int2dna]
    have hdiv : (4 * dna2int s + c.val) >>> 2 = dna2int s := by
      rw [Nat.shiftRight_eq_div_pow]
      have hc := c.isLt
      omega
    have hmod : (4 * dna2int s + c.val) &&& 3 = c.val := by
      have h3 : (3 : Nat) = 2 ^ 2 - 1 := by norm_num
      rw [h3, Nat.and_pow_two_sub_one_eq_mod]
      have hc := c.isLt
      omega
    rw [hdiv, ih (by omega)]
    congr 1
    exact congrArg (fun x => [x]) (Fin.ext hmod)

/-- C2: for every nucleotide string of length k with 2 ≤ k ≤ 32, decoding the
packed integer produced by encoding it (with length parameter k) returns the
string exactly: `int2dna (dna2int s) k = s`. -/
theorem dna2int_int2dna_roundtrip (s : List (Fin 4))
    (h2 : 2 ≤ s.length) (h32 : s.length ≤ 32) :
    int2dna (dna2int s) s.length = s :=
  int2dna_dna2int_aux s h32

/-- Witness for C2 at the concrete 4-mer ACGT. -/
theorem dna2int_int2dna_roundtrip_witness :
    2 ≤ ([0, 1, 2, 3] : List (Fin 4)).length ∧
      ([0, 1, 2, 3] : List (Fin 4)).length ≤ 32 ∧
      int2dna (dna2int [0, 1, 2, 3]) ([0, 1, 2, 3] : List (Fin 4)).length
        = [0, 1, 2, 3] :=
  ⟨by decide, by decide,
    dna2int_int2dna_roundtrip [0, 1, 2, 3] (by decide) (by decide)⟩

/-- Auxiliary: folding set-insertions of encoded lines equals the union with
the finite set of all encodings. -/
theorem foldl_insert_toFinset (f : String → Nat) (lines : List String)
    (s : Finset Nat) :
    lines.foldl (fun acc line => insert (f line) acc) s
      = s ∪ (lines.map f).toFinset := by
  induction lines generalizing s with
  | nil => simp
  | cons a l ih =>
    simp only [List.foldl_cons, List.map_cons, List.toFinset_cons]
    rw [ih]
    ext x
    simp only [Finset.mem_union, Finset.mem_insert, List.mem_toFinset]
    tauto

/-- C4 (counterexample): the empty line is not a decodable k-length
nucleotide string, yet loading a forbidden-kmer file consisting of that
line is not an error: the loader proceeds and returns the set containing
its encoding 0. -/
theorem parse_kmer_list_accepts_empty_line :
    ¬ decodableKmerLine 16 "" ∧ parse_kmer_list [""] = {0} := by
  constructor
  · intro h
    exact absurd h.1 (by decide)
  · decide

/-- C4 (amended): loading the forbidden set never validates its lines: for
every line list the loader succeeds and returns exactly the set of the
`dna2int` encodings of all lines (empty and non-ACGT lines included); only
failure to open the file is fatal in the source. -/
theorem parse_kmer_list_inserts_every_line (lines : List String) :
    parse_kmer_list lines
      = (lines.map (fun line => dna2int (strToDna line))).toFinset := by
  unfold parse_kmer_list
  rw [foldl_insert_toFinset]
  simp

/-- C3 (code bug evidence): sampling the end of the read ACGT with window
length 2 emits the window CGT of length 3, not the length
min(window_len, read_length) = 2 suffix the spec states: the suffix start
`length - 1 - current_cut_size` is off by one. -/
theorem sampleWindow_end_off_by_one :
    sampleWindow [0, 1, 2, 3] 2 true = some [1, 2, 3] ∧
      ([1, 2, 3] : List (Fin 4)).length = 3 ∧
      min 2 ([0, 1, 2, 3] : List (Fin 4)).length = 2 := by
  refine ⟨by decide, by decide, by decide⟩

/-- C5 (code bug evidence): k = 2 passes the program's own k ∈ [2,32]
validation, a two-symbol window yields one k-mer extraction (hence one
scorer call), and the score denominator `2 * (k - 2)` is 0 there: the
division by a zero denominator is reachable, not guarded. -/
theorem k2_zero_denominator_reachable :
    kValid 2 = true ∧ (kmerList [0, 1] 2).length = 1 ∧ lcDenominator 2 = 0 := by
  refine ⟨by decide, by decide, by decide⟩

/-- C8 (counterexample): with a negative base threshold the rescaling is
strictly decreasing in the target k (from target 2 to target 3 the value
drops), refuting monotone increase for every fixed base threshold. -/
theorem adjust_threshold_not_monotone_for_negative :
    adjust_threshold (-1) 16 3 < adjust_threshold (-1) 16 2 := by
  unfold adjust_threshold
  norm_num

/-- C8 (amended): the rescaling computes
`base * ((target_k - 1) / (base_k - 1))^2`; it is the identity at
`adjust_threshold t 16 16` for every t, and for every fixed nonnegative
base threshold and base k it is monotonically increasing in the target
k ≥ 2. -/
theorem adjust_threshold_identity_and_monotone :
    (∀ t : ℚ, adjust_threshold t 16 16 = t) ∧
      ∀ (t : ℚ) (k_old k_new k_new' : Nat), 0 ≤ t → 2 ≤ k_new → k_new ≤ k_new' →
        adjust_threshold t k_old k_new ≤ adjust_threshold t k_old k_new' := by
  constructor
  · intro t
    unfold adjust_threshold
    norm_num
  · intro t k_old k_new k_new' ht h2 hle
    unfold adjust_threshold
    apply mul_le_mul_of_nonneg_left _ ht
    rcases eq_or_ne (((k_old : ℚ) - 2 + 1) ^ 2) 0 with h0 | h0
    · rw [h0, div_zero, div_zero]
    · have hd : 0 < ((k_old : ℚ) - 2 + 1) ^ 2 :=
        lt_of_le_of_ne (sq_nonneg _) (Ne.symm h0)
      rw [div_le_div_iff_of_pos_right hd]
      have h1 : (2 : ℚ) ≤ (k_new : ℚ) := by exact_mod_cast h2
      have hcast : ((k_new : ℚ)) ≤ (k_new' : ℚ) := by exact_mod_cast hle
      apply pow_le_pow_left₀ (by linarith) (by linarith)

/-- Witness for the amended C8 at t = 1, base k = 16, targets 2 ≤ 3. -/
theorem adjust_threshold_identity_and_monotone_witness :
    (0 : ℚ) ≤ 1 ∧ (2 : Nat) ≤ 2 ∧ (2 : Nat) ≤ 3 ∧
      adjust_threshold 1 16 2 ≤ adjust_threshold 1 16 3 :=
  ⟨by norm_num, by norm_num, by norm_num,
    adjust_threshold_identity_and_monotone.2 1 16 2 3 (by norm_num)
      (le_refl 2) (by norm_num)⟩

/-- C9 (code bug evidence): at the weak-signal check the code reads entry
[0] of the approximate-count result vector; on the empty result list the
access is out of bounds (none), while on a nonempty list the warning fires
exactly when the top count is strictly below 10 percent of sn. -/
theorem weakSignalWarning_empty_out_of_bounds :
    weakSignalWarning [] 10000 = none ∧
      weakSignalWarning [(0, 5)] 100 = some true ∧
      weakSignalWarning [(0, 10)] 100 = some false := by
  refine ⟨rfl, ?_, ?_⟩
  · simp only [weakSignalWarning, FREQ_THRESHOLD_WARNING, List.head?,
      Option.map_some, Option.some.injEq, decide_eq_true_eq]
    norm_num
  · simp only [weakSignalWarning, FREQ_THRESHOLD_WARNING, List.head?,
      Option.map_some, Option.some.injEq, decide_eq_false_iff_not]
    norm_num

/-- The sort comparator is transitive. -/
theorem countDescLE_trans (a b c : Nat × Nat) :
    countDescLE a b = true → countDescLE b c = true → countDescLE a c = true := by
  intro hab hbc
  rw [countDescLE, decide_eq_true_eq] at *
  omega

/-- The sort comparator is total. -/
theorem countDescLE_total (a b : Nat × Nat) :
    (countDescLE a b || countDescLE b a) = true := by
  rcases Nat.le_total b.2 a.2 with h | h <;> simp [countDescLE, h]

/-- Every entry of the kept limit-length sorted head has count ≥ the
threshold. -/
theorem take_solidLimit_sound (solid_km : Nat) :
    ∀ v : List (Nat × Nat), ∀ p ∈ v.take (solidLimit solid_km v), solid_km ≤ p.2 := by
  intro v
  induction v with
  | nil => simp
  | cons q rest ih =>
    intro p hp
    by_cases h : solid_km ≤ q.2
    · rw [solidLimit, if_pos h, List.take_succ_cons] at hp
      rcases List.mem_cons.mp hp with rfl | hp'
      · exact h
      · exact ih p hp'
    · rw [solidLimit, if_neg h] at hp
      simp at hp

/-- In a descending-sorted list, every entry with count ≥ the threshold lies
in the kept limit-length head (the break loses nothing). -/
theorem take_solidLimit_complete (solid_km : Nat) :
    ∀ v : List (Nat × Nat), List.Pairwise (fun a b => countDescLE a b = true) v →
      ∀ p ∈ v, solid_km ≤ p.2 → p ∈ v.take (solidLimit solid_km v) := by
  intro v
  induction v with
  | nil => simp
  | cons q rest ih =>
    intro hs p hp hge
    rw [List.pairwise_cons] at hs
    by_cases h : solid_km ≤ q.2
    · rw [solidLimit, if_pos h, List.take_succ_cons]
      rcases List.mem_cons.mp hp with rfl | hp'
      · exact List.mem_cons_self _ _
      · exact List.mem_cons_of_mem _ (ih hs.2 p hp' hge)
    · exfalso
      rcases List.mem_cons.mp hp with rfl | hp'
      · exact h hge
      · have hq := hs.1 p hp'
        rw [countDescLE, decide_eq_true_eq] at hq
        omega

/-- C6: the solid selection keeps exactly the entries at or above the
threshold: every returned pair has count ≥ the threshold; every pair of the
input table with count ≥ the threshold is returned (no gaps); the empty
table yields the empty list. -/
theorem get_solid_kmers_sound_complete (count_map : List (Nat × Nat))
    (solid_km : Nat) :
    (∀ p ∈ get_solid_kmers count_map solid_km, solid_km ≤ p.2) ∧
      (∀ p ∈ count_map, solid_km ≤ p.2 → p ∈ get_solid_kmers count_map solid_km) ∧
      (count_map = [] → get_solid_kmers count_map solid_km = []) := by
  refine ⟨?_, ?_, ?_⟩
  · intro p hp
    exact take_solidLimit_sound solid_km _ p hp
  · intro p hp hge
    show p ∈ (count_map.mergeSort countDescLE).take
      (solidLimit solid_km (count_map.mergeSort countDescLE))
    refine take_solidLimit_complete solid_km _ ?_ p ?_ hge
    · exact List.sorted_mergeSort countDescLE_trans countDescLE_total count_map
    · exact (List.mergeSort_perm count_map countDescLE).mem_iff.mpr hp
  · rintro rfl
    show (List.mergeSort [] countDescLE).take _ = []
    rw [List.mergeSort_nil]
    rfl

/-- Witness for C6 on the table [(5,10), (7,3)] with threshold 4: the pair
(5,10) meets the threshold and is returned. -/
theorem get_solid_kmers_sound_complete_witness :
    ((5, 10) : Nat × Nat) ∈ ([(5, 10), (7, 3)] : List (Nat × Nat)) ∧
      (4 : Nat) ≤ 10 ∧
      ((5, 10) : Nat × Nat) ∈ get_solid_kmers [(5, 10), (7, 3)] 4 :=
  ⟨by decide, by decide,
    (get_solid_kmers_sound_complete [(5, 10), (7, 3)] 4).2.1 (5, 10)
      (by decide) (by decide)⟩

/-- The slide produces one code per remaining symbol. -/
theorem slideKmers_length (base : Nat) :
    ∀ (rest : List (Fin 4)) (n : Nat), (slideKmers base n rest).length = rest.length := by
  intro rest
  induction rest with
  | nil => intro n; rfl
  | cons ch cs ih => intro n; simp [slideKmers, ih]

/-- A window of length L yields exactly max(0, L - k + 1) k-mer extractions
(`L + 1 - k` in truncated Nat subtraction). -/
theorem kmerList_length (seq : List (Fin 4)) (k : Nat) (hk : 1 ≤ k) :
    (kmerList seq k).length = seq.length + 1 - k := by
  unfold kmerList
  rw [slideKmers_length, List.length_drop]
  omega

/-- One increment adds exactly one to the total of the table. -/
theorem sumCounts_incr (count : List (Nat × Nat)) (key : Nat) :
    sumCounts (incr count key) = sumCounts count + 1 := by
  induction count with
  | nil => rfl
  | cons p rest ih =>
    by_cases h : p.1 = key
    · simp only [incr, if_pos h, sumCounts, List.map_cons, List.sum_cons]
      omega
    · simp only [incr, if_neg h, sumCounts, List.map_cons, List.sum_cons] at *
      omega

/-- Folding the filtered increments over a code list adds at most its
length. -/
theorem sumCounts_foldl_filter_le (f : Nat → Bool) :
    ∀ (ks : List Nat) (count : List (Nat × Nat)),
      sumCounts (ks.foldl (fun count n => if f n then incr count n else count) count)
        ≤ sumCounts count + ks.length := by
  intro ks
  induction ks with
  | nil => intro count; simp
  | cons n rest ih =>
    intro count
    simp only [List.foldl_cons, List.length_cons]
    by_cases h : f n
    · rw [if_pos h]
      calc sumCounts (rest.foldl _ (incr count n))
          ≤ sumCounts (incr count n) + rest.length := ih _
        _ = sumCounts count + 1 + rest.length := by rw [sumCounts_incr]
        _ ≤ sumCounts count + (rest.length + 1) := by omega
    · rw [if_neg h]
      calc sumCounts (rest.foldl _ count) ≤ sumCounts count + rest.length := ih _
        _ ≤ sumCounts count + (rest.length + 1) := by omega

/-- Folding the per-window counting over all windows adds at most the total
number of extractions. -/
theorem sumCounts_windows_fold (k : Nat) (threshold : ℚ) (kmer_set : Finset Nat) :
    ∀ (ws : List (List (Fin 4))) (count : List (Nat × Nat)),
      sumCounts (ws.foldl
          (fun count seq =>
            (kmerList seq k).foldl
              (fun count n =>
                if !haveLowComplexity n k threshold && !isForbiddenKmer n kmer_set
                then incr count n else count)
              count)
          count)
        ≤ sumCounts count + (ws.map (fun w => (kmerList w k).length)).sum := by
  intro ws
  induction ws with
  | nil => intro count; simp
  | cons w rest ih =>
    intro count
    simp only [List.foldl_cons, List.map_cons, List.sum_cons]
    calc sumCounts (rest.foldl _ _)
        ≤ sumCounts ((kmerList w k).foldl _ count) + (rest.map _).sum := ih _
      _ ≤ sumCounts count + (kmerList w k).length + (rest.map _).sum :=
          Nat.add_le_add_right
            (sumCounts_foldl_filter_le
              (fun n => !haveLowComplexity n k threshold && !isForbiddenKmer n kmer_set)
              (kmerList w k) count) _
      _ ≤ _ := by omega

/-- C7: for every sampled window and k in [2,32], the exact counter extracts
exactly max(0, L - k + 1) candidate k-mers from a window of length L
(windows shorter than k produce none), and the sum of all counts of the
resulting table never exceeds the sum of that figure over all windows. -/
theorem count_kmers_extractions_and_bound (sequences : List (List (Fin 4)))
    (k : Nat) (threshold : ℚ) (kmer_set : Finset Nat)
    (h2 : 2 ≤ k) (h32 : k ≤ 32) :
    (∀ w ∈ sequences, (kmerList w k).length = w.length + 1 - k) ∧
      sumCounts (count_kmers sequences k threshold kmer_set)
        ≤ (sequences.map (fun w => w.length + 1 - k)).sum := by
  constructor
  · intro w _
    exact kmerList_length w k (by omega)
  · have h := sumCounts_windows_fold k threshold kmer_set sequences []
    have h0 : sumCounts ([] : List (Nat × Nat)) = 0 := rfl
    rw [h0, Nat.zero_add] at h
    have hmap : sequences.map (fun w => (kmerList w k).length)
        = sequences.map (fun w => w.length + 1 - k) :=
      List.map_congr_left (fun w _ => kmerList_length w k (by omega))
    rw [hmap] at h
    exact h

/-- Witness for C7 on the single window ACG with k = 2: two extractions and
a total count of at most two. -/
theorem count_kmers_extractions_and_bound_witness :
    (2 : Nat) ≤ 2 ∧ (2 : Nat) ≤ 32 ∧
      (kmerList ([0, 1, 2] : List (Fin 4)) 2).length
          = ([0, 1, 2] : List (Fin 4)).length + 1 - 2 ∧
      sumCounts (count_kmers [[0, 1, 2]] 2 (3 / 2) ∅)
        ≤ (([[0, 1, 2]] : List (List (Fin 4))).map
            (fun w => w.length + 1 - 2)).sum :=
  ⟨by decide, by decide,
    (count_kmers_extractions_and_bound [[0, 1, 2]] 2 (3 / 2) ∅ (by decide)
        (by decide)).1 [0, 1, 2] (by decide),
    (count_kmers_extractions_and_bound [[0, 1, 2]] 2 (3 / 2) ∅ (by decide)
        (by decide)).2⟩

/-- The bit-field popcount is the number of true bits. -/
theorem vectorSum_eq_count (vec : bit_field) : vectorSum vec = vec.count true := by
  suffices h : ∀ (vec : bit_field) (a : Nat),
      vec.foldl (fun res b => res + if b then 1 else 0) a = a + vec.count true by
    simpa using h vec 0
  intro vec
  induction vec with
  | nil => intro a; simp
  | cons b rest ih =>
    intro a
    simp only [List.foldl_cons, List.count_cons, ih]
    cases b <;> simp <;> omega

/-- Setting a bit true adds one to the popcount exactly when the bit was an
in-range false (out-of-range sets and already-set bits are no-ops). -/
theorem count_true_set (vec : bit_field) :
    ∀ i, (vec.set i true).count true
      = vec.count true + if vec.getD i true = false then 1 else 0 := by
  induction vec with
  | nil => intro i; simp [List.getD_nil]
  | cons b rest ih =>
    intro i
    match i with
    | 0 =>
      rw [List.set_cons_zero, List.getD_cons_zero]
      cases b <;> simp [List.count_cons]
    | j + 1 =>
      rw [List.set_cons_succ, List.getD_cons_succ]
      simp only [List.count_cons, ih j]
      cases b <;> simp <;> omega

/-- getD does not depend on the default inside the bounds. -/
theorem getD_indep (vec : bit_field) :
    ∀ i, i < vec.length → ∀ d d' : Bool, vec.getD i d = vec.getD i d' := by
  induction vec with
  | nil => intro i h; simp at h
  | cons b rest ih =>
    intro i h d d'
    match i with
    | 0 => rfl
    | j + 1 =>
      rw [List.getD_cons_succ, List.getD_cons_succ]
      exact ih j (by simpa using h) d d'

/-- Reading back the bit just set, in range. -/
theorem getD_set_self (vec : bit_field) :
    ∀ i, i < vec.length → ∀ (v d : Bool), (vec.set i v).getD i d = v := by
  induction vec with
  | nil => intro i h; simp at h
  | cons b rest ih =>
    intro i h v d
    match i with
    | 0 => rfl
    | j + 1 =>
      rw [List.set_cons_succ, List.getD_cons_succ]
      exact ih j (by simpa using h) v d

/-- Reading any other bit is unaffected by a set. -/
theorem getD_set_ne (vec : bit_field) :
    ∀ i j, i ≠ j → ∀ (v d : Bool), (vec.set i v).getD j d = vec.getD j d := by
  induction vec with
  | nil => intro i j _ v d; rfl
  | cons b rest ih =>
    intro i j hne v d
    match i, j with
    | 0, 0 => exact absurd rfl hne
    | 0, l + 1 => rw [List.set_cons_zero, List.getD_cons_succ, List.getD_cons_succ]
    | m + 1, 0 => rw [List.set_cons_succ, List.getD_cons_zero, List.getD_cons_zero]
    | m + 1, l + 1 =>
      rw [List.set_cons_succ, List.getD_cons_succ, List.getD_cons_succ]
      exact ih m l (fun hh => hne (by omega)) v d

/-- `getD` of the all-false reset field. -/
theorem getD_replicate_false (sample_size : Nat) :
    ∀ r, (List.replicate sample_size false).getD r false = false := by
  induction sample_size with
  | zero => intro r; simp [List.getD_nil]
  | succ m ih =>
    intro r
    match r with
    | 0 => rfl
    | j + 1 =>
      simp only [List.replicate_succ, List.getD_cons_succ]
      exact ih j

/-- Processing one more occurrence is a `setOcc` step at the right end. -/
theorem tcountFill_append (occs : List (Nat × Fin 3)) (o : Nat × Fin 3)
    (sample_size : Nat) :
    tcountFill (occs ++ [o]) sample_size
      = setOcc (tcountFill occs sample_size) o := by
  unfold tcountFill
  rw [List.foldl_append]
  rfl

/-- Each of the three bit fields keeps its `sample_size` length. -/
theorem tcountFill_length (sample_size : Nat) :
    ∀ (occs : List (Nat × Fin 3)) (e : Fin 3),
      (tcountFill occs sample_size e).length = sample_size := by
  intro occs
  induction occs using List.reverseRecOn with
  | nil => intro e; simp [tcountFill]
  | append_singleton occs o ih =>
    intro e
    rw [tcountFill_append, setOcc]
    by_cases h : e = o.2
    · rw [if_pos h, List.length_set]
      exact ih e
    · rw [if_neg h]
      exact ih e

/-- Bit (r) of field (e) is set exactly when the occurrence (r, e) was
reported with an in-range read id. -/
theorem tcountFill_getD (sample_size : Nat) :
    ∀ (occs : List (Nat × Fin 3)) (r : Nat) (e : Fin 3),
      ((tcountFill occs sample_size e).getD r false = true)
        ↔ ((r, e) ∈ occs ∧ r < sample_size) := by
  intro occs
  induction occs using List.reverseRecOn with
  | nil =>
    intro r e
    show (List.replicate sample_size false).getD r false = true ↔ _
    rw [getD_replicate_false]
    simp
  | append_singleton occs o ih =>
    intro r e
    rw [tcountFill_append, setOcc]
    by_cases he : e = o.2
    · rw [if_pos he]
      by_cases hr : o.1 = r
      · rcases Nat.lt_or_ge o.1 sample_size with hlt | hge
        · subst hr
          rw [getD_set_self _ _ (by rw [tcountFill_length]; exact hlt)]
          constructor
          · intro _
            exact ⟨List.mem_append.mpr (Or.inr (by rw [he]; simp)), hlt⟩
          · intro _
            rfl
        · subst hr
          rw [List.set_eq_of_length_le (by rw [tcountFill_length]; exact hge)]
          rw [ih]
          constructor
          · rintro ⟨_, hlt⟩
            omega
          · rintro ⟨_, hlt⟩
            omega
      · rw [getD_set_ne _ _ _ hr, ih]
        have hno : ((r, e) = o) → False := by
          intro hh
          exact hr (by rw [← hh])
        constructor
        · rintro ⟨hm, hlt⟩
          exact ⟨List.mem_append.mpr (Or.inl hm), hlt⟩
        · rintro ⟨hm, hlt⟩
          rcases List.mem_append.mp hm with hm' | hm'
          · exact ⟨hm', hlt⟩
          · exact absurd (by simpa using hm') hno
    · rw [if_neg he, ih]
      have hno : ((r, e) = o) → False := by
        intro hh
        exact he (by rw [← hh])
      constructor
      · rintro ⟨hm, hlt⟩
        exact ⟨List.mem_append.mpr (Or.inl hm), hlt⟩
      · rintro ⟨hm, hlt⟩
        rcases List.mem_append.mp hm with hm' | hm'
        · exact ⟨hm', hlt⟩
        · exact absurd (by simpa using hm') hno

/-- One delegate step adds one to the total exactly when the bit was not
yet set. -/
theorem totalOf_setOcc (tcount : Fin 3 → bit_field) (r : Nat) (e : Fin 3) :
    totalOf (setOcc tcount (r, e))
      = totalOf tcount + if (tcount e).getD r true = false then 1 else 0 := by
  have he : e = 0 ∨ e = 1 ∨ e = 2 := by
    obtain ⟨ev, hv⟩ := e
    interval_cases ev
    · exact Or.inl rfl
    · exact Or.inr (Or.inl rfl)
    · exact Or.inr (Or.inr rfl)
  rcases he with he | he | he
  all_goals subst he
  all_goals unfold totalOf
  all_goals simp only [setOcc]
  · rw [if_true, if_neg (show (1 : Fin 3) = 0 → False by decide),
      if_neg (show (2 : Fin 3) = 0 → False by decide),
      vectorSum_eq_count ((tcount 0).set r true), count_true_set,
      ← vectorSum_eq_count (tcount 0)]
    omega
  · rw [if_true, if_neg (show (0 : Fin 3) = 1 → False by decide),
      if_neg (show (2 : Fin 3) = 1 → False by decide),
      vectorSum_eq_count ((tcount 1).set r true), count_true_set,
      ← vectorSum_eq_count (tcount 1)]
    omega
  · rw [if_true, if_neg (show (0 : Fin 3) = 2 → False by decide),
      if_neg (show (1 : Fin 3) = 2 → False by decide),
      vectorSum_eq_count ((tcount 2).set r true), count_true_set,
      ← vectorSum_eq_count (tcount 2)]
    omega

/-- The candidate total equals the number of distinct in-range
(read id, error level) pairs among the reported occurrences. -/
theorem totalCount_eq_card (sample_size : Nat) :
    ∀ occs : List (Nat × Fin 3), (∀ p ∈ occs, p.1 < sample_size) →
      totalCount sample_size occs = occs.toFinset.card := by
  intro occs
  induction occs using List.reverseRecOn with
  | nil =>
    intro _
    show totalOf (tcountFill [] sample_size) = 0
    simp [totalOf, tcountFill, vectorSum_eq_count, List.count_replicate]
  | append_singleton occs o ih =>
    intro h
    obtain ⟨r, e⟩ := o
    have hocc : ∀ p ∈ occs, p.1 < sample_size :=
      fun p hp => h p (List.mem_append.mpr (Or.inl hp))
    have ho : r < sample_size := h (r, e) (List.mem_append.mpr (Or.inr (by simp)))
    show totalOf (tcountFill (occs ++ [(r, e)]) sample_size) = _
    rw [tcountFill_append, totalOf_setOcc]
    have ihh : totalOf (tcountFill occs sample_size) = occs.toFinset.card := ih hocc
    rw [ihh]
    have hdd : (tcountFill occs sample_size e).getD r true
        = (tcountFill occs sample_size e).getD r false :=
      getD_indep _ r (by rw [tcountFill_length]; exact ho) _ _
    rw [hdd]
    have hfin : (occs ++ [(r, e)]).toFinset = insert (r, e) occs.toFinset := by
      ext x
      simp [or_comm]
    rw [hfin]
    by_cases hmem : (r, e) ∈ occs
    · have hset : (tcountFill occs sample_size e).getD r false = true :=
        (tcountFill_getD sample_size occs r e).mpr ⟨hmem, ho⟩
      rw [hset]
      rw [Finset.insert_eq_self.mpr (List.mem_toFinset.mpr hmem)]
      simp
    · have hset : (tcountFill occs sample_size e).getD r false = false := by
        rw [← Bool.not_eq_true]
        intro hc
        exact hmem ((tcountFill_getD sample_size occs r e).mp hc).1
      rw [hset]
      rw [Finset.card_insert_of_not_mem (fun hc => hmem (List.mem_toFinset.mp hc))]
      simp

/-- C1: for every fixed occurrence set returned by the approximate search
(all read ids in range), the candidate total equals the number of distinct
(window id, edit level) pairs among the occurrences, and is invariant under
any reordering of the occurrence stream (hence independent of thread count
and scheduling). -/
theorem errorCount_total_distinct_pairs (sample_size : Nat)
    (occs : List (Nat × Fin 3)) (h : ∀ p ∈ occs, p.1 < sample_size) :
    totalCount sample_size occs = occs.toFinset.card ∧
      ∀ occs' : List (Nat × Fin 3), occs.Perm occs' →
        totalCount sample_size occs' = totalCount sample_size occs := by
  refine ⟨totalCount_eq_card sample_size occs h, ?_⟩
  intro occs' hperm
  rw [totalCount_eq_card sample_size occs h,
    totalCount_eq_card sample_size occs' (fun p hp => h p (hperm.mem_iff.mpr hp)),
    List.toFinset_eq_of_perm _ _ hperm]

/-- Witness for C1: three occurrences over two windows with one duplicate
pair give total 2 = number of distinct pairs. -/
theorem errorCount_total_distinct_pairs_witness :
    (∀ p ∈ ([(0, 0), (1, 2), (0, 0)] : List (Nat × Fin 3)), p.1 < 2) ∧
      totalCount 2 [(0, 0), (1, 2), (0, 0)]
        = ([(0, 0), (1, 2), (0, 0)] : List (Nat × Fin 3)).toFinset.card :=
  ⟨by decide, (errorCount_total_distinct_pairs 2 _ (by decide)).1⟩

/-- The total for one candidate never exceeds 3 bits per sampled window. -/
theorem totalCount_le (sample_size : Nat) (occs : List (Nat × Fin 3)) :
    totalCount sample_size occs ≤ 3 * sample_size := by
  unfold totalCount totalOf
  have hb : ∀ e : Fin 3, vectorSum (tcountFill occs sample_size e) ≤ sample_size := by
    intro e
    rw [vectorSum_eq_count]
    calc List.count true (tcountFill occs sample_size e)
        ≤ (tcountFill occs sample_size e).length := List.count_le_length _ _
      _ = sample_size := tcountFill_length sample_size occs e
  have h0 := hb 0
  have h1 := hb 1
  have h2 := hb 2
  omega

/-- With pairwise-distinct candidate keys the fold writes each candidate's
total to its own fresh key. -/
theorem errorCount_foldl_nodup (occsOf : Nat → List (Nat × Fin 3))
    (sample_size : Nat) :
    ∀ (cands res : List (Nat × Nat)),
      (res.map Prod.fst ++ cands.map Prod.fst).Nodup →
      cands.foldl
          (fun results c => mapAssign results c.1 (totalCount sample_size (occsOf c.1)))
          res
        = res ++ cands.map (fun c => (c.1, totalCount sample_size (occsOf c.1))) := by
  intro cands
  induction cands with
  | nil => intro res _; simp
  | cons c rest ih =>
    intro res hnd
    simp only [List.foldl_cons, List.map_cons]
    have hnd' := hnd
    rw [List.nodup_append] at hnd'
    have hkey : c.1 ∉ res.map Prod.fst := by
      intro hmem
      exact hnd'.2.2 hmem (by simp)
    have hany : res.any (fun p => p.1 == c.1) = false := by
      rw [← Bool.not_eq_true, List.any_eq_true]
      rintro ⟨x, hx, hb⟩
      rw [beq_iff_eq] at hb
      exact hkey (List.mem_map.mpr ⟨x, hx, hb⟩)
    have hassign : mapAssign res c.1 (totalCount sample_size (occsOf c.1))
        = res ++ [(c.1, totalCount sample_size (occsOf c.1))] := by
      unfold mapAssign
      rw [hany]
      simp
    rw [hassign, ih (res ++ [(c.1, totalCount sample_size (occsOf c.1))]) ?_]
    · rw [List.append_assoc, List.singleton_append]
    · rw [List.map_append]
      show ((res.map Prod.fst ++ [c.1]) ++ rest.map Prod.fst).Nodup
      rw [List.append_assoc, List.singleton_append]
      exact hnd

/-- C10: for distinct candidate keys the approximate counter's output table
has exactly one entry per input candidate (same keys in order), and every
reported total is at most 3 · sample size (one bit per window per edit
level). -/
theorem errorCount_entries_and_bound (occsOf : Nat → List (Nat × Fin 3))
    (exact_count : List (Nat × Nat)) (sample_size : Nat)
    (hnd : (exact_count.map Prod.fst).Nodup) :
    (errorCount occsOf exact_count sample_size).map Prod.fst
        = exact_count.map Prod.fst ∧
      ∀ p ∈ errorCount occsOf exact_count sample_size, p.2 ≤ 3 * sample_size := by
  have heq : errorCount occsOf exact_count sample_size
      = exact_count.map (fun c => (c.1, totalCount sample_size (occsOf c.1))) := by
    unfold errorCount
    have h := errorCount_foldl_nodup occsOf sample_size exact_count []
      (by simpa using hnd)
    simpa using h
  constructor
  · rw [heq, List.map_map]
    exact List.map_congr_left (fun c _ => rfl)
  · intro p hp
    rw [heq] at hp
    obtain ⟨c, _, rfl⟩ := List.mem_map.mp hp
    exact totalCount_le sample_size (occsOf c.1)

/-- Witness for C10: one candidate (kmer 7, exact count 5), one window, one
exact occurrence: the table has the single key 7 and its total is ≤ 3. -/
theorem errorCount_entries_and_bound_witness :
    ((([(7, 5)] : List (Nat × Nat)).map Prod.fst).Nodup) ∧
      (errorCount (fun _ => [(0, 0)]) [(7, 5)] 1).map Prod.fst
          = ([(7, 5)] : List (Nat × Nat)).map Prod.fst ∧
      ∀ p ∈ errorCount (fun _ => [(0, 0)]) [(7, 5)] 1, p.2 ≤ 3 * 1 :=
  ⟨by decide,
    (errorCount_entries_and_bound (fun _ => [(0, 0)]) [(7, 5)] 1 (by decide)).1,
    (errorCount_entries_and_bound (fun _ => [(0, 0)]) [(7, 5)] 1 (by decide)).2⟩

end AdaptFinder
